import Mathlib

/-!
Verification of `filter_ssm_documents.py`.

The script reads SSM document ARNs from an input file, fetches each
document's JSON content through a per-region boto3 client, classifies the
content with `has_outdated_python_runtime`, and writes the matching ARNs to
an output file.

Shallow embedding conventions:
* JSON/Python values (the result of `json.loads`) are modelled by `JValue`.
  Python truthiness, `dict.get`, and `for`-iteration (which raises
  `TypeError` on a non-iterable value) are modelled explicitly.
* `has_outdated_python_runtime` returns `Except Unit Bool`: `.error ()`
  models an uncaught Python exception (the `TypeError` raised by iterating
  a non-iterable `mainSteps` value), `.ok b` a normal boolean return.
* The remote collaborator (boto3 client construction and
  `get_document`, plus the writability of the output file) is an oracle
  `World`; `json.loads` of the fetched body is abstracted into the oracle's
  answer (`ContentVal`): either no usable content, a JSON decode failure,
  or a decoded `JValue`.
* File I/O is abstracted: the driver takes `Option (List String)`
  (`none` = `FileNotFoundError` on the input file) and reports the lines
  it would write instead of writing them.
-/

/-- A JSON value as produced by Python's `json.loads` (numbers collapsed to
`Int`; no claim depends on numeric contents). An `obj` is the insertion
sequence of key/value pairs of a Python `dict`. -/
inductive JValue where
  | null
  | bool (b : Bool)
  | num (n : Int)
  | str (s : String)
  | arr (elems : List JValue)
  | obj (fields : List (String × JValue))

/-- Python dictionary lookup: the binding of the *last* occurrence of the
key wins (later inserts overwrite earlier ones). -/
def lookupLast (fields : List (String × JValue)) (k : String) : Option JValue :=
  match fields with
  | [] => none
  | (k1, v) :: rest =>
    match lookupLast rest k with
    | some r => some r
    | none => if k1 = k then some v else none

/-- Python `d.get(k)` on a dict; `none` for a non-dict receiver (the code
always guards with `isinstance(..., dict)` before calling `.get`). -/
def JValue.getField : JValue → String → Option JValue
  | .obj fields, k => lookupLast fields k
  | _, _ => none

def JValue.isObj : JValue → Bool
  | .obj _ => true
  | _ => false

/-- Python truthiness of a JSON value (`None`, `False`, `0`, `""`, `[]`,
`{}` are falsy). -/
def JValue.isTruthy : JValue → Bool
  | .null => false
  | .bool b => b
  | .num n => n != 0
  | .str s => !s.data.isEmpty
  | .arr xs => !xs.isEmpty
  | .obj fields => !fields.isEmpty

/-- Keys of a Python dict in iteration order: first-insertion position,
each key once. -/
def dictKeys : List (String × JValue) → List String
  | [] => []
  | (k, _) :: rest => k :: (dictKeys rest).filter (fun k2 => k2 != k)

/-- Python `for x in v`: `some` of the yielded elements for an iterable
value (list: its elements; string: its one-character substrings; dict: its
keys), `none` when Python would raise `TypeError` (null, bool, number). -/
def pyIter : JValue → Option (List JValue)
  | .arr xs => some xs
  | .str s => some (s.data.map (fun c => .str (String.mk [c])))
  | .obj fields => some ((dictKeys fields).map .str)
  | _ => none

/-- The per-step test inside the loop of `has_outdated_python_runtime`:
the step is a dict, its `action` equals `"aws:executeScript"`, and
`inputs.Runtime` (with `inputs` defaulting to `{}`) is a string that is a
member of the denylist. -/
def stepQualifies (old_runtimes_list : List String) (step : JValue) : Bool :=
  match step with
  | .obj _ =>
    (match step.getField "action" with
     | some (.str a) => a == "aws:executeScript"
     | _ => false)
    &&
    (let inputs := (step.getField "inputs").getD (.obj [])
     match inputs with
     | .obj _ =>
       match inputs.getField "Runtime" with
       | some (.str r) => old_runtimes_list.contains r
       | _ => false
     | _ => false)
  | _ => false

/-- `has_outdated_python_runtime(document_content, old_runtimes_list)`.
`.error ()` models the uncaught `TypeError` raised by
`for step in document_content.get("mainSteps", [])` when the `mainSteps`
value is not iterable. -/
def has_outdated_python_runtime (document_content : JValue)
    (old_runtimes_list : List String) : Except Unit Bool :=
  if !document_content.isTruthy || !document_content.isObj then .ok false
  else
    match pyIter ((document_content.getField "mainSteps").getD (.arr [])) with
    | none => .error ()
    | some steps => .ok (steps.any (stepQualifies old_runtimes_list))

/-- Consume the literal `lit` from the front of `cs`; `some` of the rest on
success. -/
def dropLit : List Char → List Char → Option (List Char)
  | [], cs => some cs
  | _ :: _, [] => none
  | l :: ls, c :: cs => if c = l then dropLit ls cs else none

/-- One `[^:]+:` group of the regex: the (necessarily maximal) nonempty
run of non-colon characters, followed by a colon. The head of
`cs.dropWhile (fun c => c != ':')`, when it exists, is necessarily `':'`,
so dropping it consumes exactly the separating colon. -/
def chompSeg (cs : List Char) : Option (List Char × List Char) :=
  let seg := cs.takeWhile (fun c => c != ':')
  let r2 := cs.dropWhile (fun c => c != ':')
  if seg.isEmpty then none
  else if r2.isEmpty then none
  else some (seg, r2.tail)

/-- The deterministic part of matching
`arn:aws:ssm:(?P<region>[^:]+):(?P<account_id>[^:]+):document/(?P<name>.*)`:
the literal prefix, the two nonempty colon-free segments with their
separating colons, and the literal `document/`; returns the region, the
account id, and the remaining characters (on which only `.*` is left to
act). -/
def parseCore (cs : List Char) : Option (String × String × List Char) :=
  match dropLit "arn:aws:ssm:".data cs with
  | none => none
  | some r1 =>
    match chompSeg r1 with
    | none => none
    | some (region, r3) =>
      match chompSeg r3 with
      | none => none
      | some (account, r5) =>
        match dropLit "document/".data r5 with
        | none => none
        | some r6 => some (String.mk region, String.mk account, r6)

/-- `parse_arn(arn_string)`: `re.match` of `ARN_REGEX`, returning
`(region, name)` on a match and `(None, None)` otherwise. `re.match` does
not anchor the end of the string, and `.` does not match a newline, so the
`name` capture is the remaining characters up to (excluding) the first
newline; anything after that newline is ignored. -/
def parse_arn (arn_string : String) : Option String × Option String :=
  match parseCore arn_string.data with
  | none => (none, none)
  | some (region, _account, rest) =>
    (some region, some (String.mk (rest.takeWhile (fun c => c != '\n'))))

/-- Outcome of `boto3.client('ssm', region_name=region)` as the driver's
`try`/`except` ladder distinguishes it: success, `NoCredentialsError` /
`PartialCredentialsError`, `ClientError`, or any other exception. -/
inductive MkClientResult where
  | ok
  | credsError
  | clientError
  | otherError
deriving DecidableEq, Repr

/-- What the oracle answers for one `get_document` call, after abstracting
`json.loads` of the `Content` string: `absent` covers a missing or falsy
`Content` field, `invalidJson` a body on which `json.loads` raises
`JSONDecodeError`, `json v` a body decoding to `v`. -/
inductive ContentVal where
  | absent
  | invalidJson
  | json (v : JValue)

/-- Outcome of `ssm_client.get_document(...)` as `get_document_content`'s
`try`/`except` ladder distinguishes it. `credsError` stands for a
`NoCredentialsError`-style exception raised during the fetch: it is not a
`ClientError` and not a `JSONDecodeError`, so it lands in the generic
`except Exception` handler. -/
inductive FetchOutcome where
  | success (c : ContentVal)
  | clientError
  | credsError
  | otherError

/-- The external collaborators of one run: client construction per
(processing-step index, region), document fetch per (region, document
name), and whether opening the output file for writing succeeds. -/
structure World where
  mkClient : Nat → String → MkClientResult
  getDocument : String → String → FetchOutcome
  writeOk : Bool

/-- `get_document_content(ssm_client, document_name)`: every failure —
missing content, `ClientError` (`InvalidDocument` or any other code),
`JSONDecodeError`, and any other exception, credentials errors included —
is caught and turned into `None`. A client is identified by its region. -/
def get_document_content (w : World) (region document_name : String) :
    Option JValue :=
  match w.getDocument region document_name with
  | .success .absent => none
  | .success .invalidJson => none
  | .success (.json v) => some v
  | .clientError => none
  | .credsError => none
  | .otherError => none

/-- One client-construction attempt: (index of the ARN being processed,
region, outcome). -/
abbrev BuildEvent := Nat × String × MkClientResult

/-- Mutable state of the driver loop: `cache` is `ssm_clients` (a client is
identified by its region, so the cache is the list of regions holding a
constructed client, in construction order), `filtered` is `filtered_arns`;
`events` records every client-construction attempt and `fetches` every
`get_document_content` call, in order. -/
structure LoopState where
  cache : List String
  filtered : List String
  events : List BuildEvent
  fetches : List (String × String)
deriving DecidableEq, Repr

def initState : LoopState := ⟨[], [], [], []⟩

/-- The driver's post-parse guard `if not region or not doc_name`: `some`
of the parts only when `parse_arn` matched and both parts are truthy
(nonempty) strings. -/
def regionName (arn : String) : Option (String × String) :=
  match parse_arn arn with
  | (some region, some doc_name) =>
    if region.data.isEmpty || doc_name.data.isEmpty then none
    else some (region, doc_name)
  | _ => none

inductive ClientOutcome where
  | ready
  | skipItem
  | abortRun
deriving DecidableEq, Repr

/-- The client resolution block: reuse a cached client, else attempt
construction at step `i`; `NoCredentialsError`/`PartialCredentialsError`
aborts the run (`return False`), `ClientError` and any other exception
skip the current ARN (`continue`). -/
def clientStep (w : World) (i : Nat) (region : String) (st : LoopState) :
    LoopState × ClientOutcome :=
  if region ∈ st.cache then (st, .ready)
  else
    match w.mkClient i region with
    | .ok =>
      ({st with cache := st.cache ++ [region],
                events := st.events ++ [(i, region, .ok)]}, .ready)
    | .credsError =>
      ({st with events := st.events ++ [(i, region, .credsError)]}, .abortRun)
    | .clientError =>
      ({st with events := st.events ++ [(i, region, .clientError)]}, .skipItem)
    | .otherError =>
      ({st with events := st.events ++ [(i, region, .otherError)]}, .skipItem)

/-- How the `for arn in arns_to_process` loop ends: all items consumed,
`return False` from the credentials handler, or an uncaught exception from
`has_outdated_python_runtime`. -/
inductive LoopStatus where
  | completed
  | aborted
  | crashed
deriving DecidableEq, Repr

/-- The driver loop over the remaining ARNs; `i` is the index of the next
ARN in `arns_to_process`. -/
def processArns (w : World) (old_runtimes_list : List String) :
    List String → Nat → LoopState → LoopState × LoopStatus
  | [], _, st => (st, .completed)
  | arn :: rest, i, st =>
    match regionName arn with
    | none => processArns w old_runtimes_list rest (i + 1) st
    | some (region, doc_name) =>
      match clientStep w i region st with
      | (st1, .abortRun) => (st1, .aborted)
      | (st1, .skipItem) => processArns w old_runtimes_list rest (i + 1) st1
      | (st1, .ready) =>
        let st2 := {st1 with fetches := st1.fetches ++ [(region, doc_name)]}
        match get_document_content w region doc_name with
        | none => processArns w old_runtimes_list rest (i + 1) st2
        | some document_content =>
          if document_content.isTruthy then
            match has_outdated_python_runtime document_content old_runtimes_list with
            | .error _ => (st2, .crashed)
            | .ok true =>
              processArns w old_runtimes_list rest (i + 1)
                {st2 with filtered := st2.filtered ++ [arn]}
            | .ok false => processArns w old_runtimes_list rest (i + 1) st2
          else processArns w old_runtimes_list rest (i + 1) st2

/-- Result of one `filter_ssm_documents` call. `result success written ev fe`:
the boolean return value, the lines written to the output file (`none` when
the output file was never successfully written), and the construction/fetch
traces. `crashed`: an exception escaped the function (the classifier's
`TypeError`). -/
inductive RunResult where
  | result (success : Bool) (written : Option (List String))
      (events : List BuildEvent) (fetches : List (String × String))
  | crashed (events : List BuildEvent) (fetches : List (String × String))
deriving DecidableEq, Repr

/-- `[line.strip() for line in f_in if line.strip()]`; `pyStrip` is
Python's `str.strip()` restricted to ASCII whitespace. -/
def isPyWS (c : Char) : Bool :=
  c = ' ' || c = '\t' || c = '\n' || c = '\r' || c = '\x0b' || c = '\x0c'

def pyStrip (s : String) : String :=
  String.mk (((s.data.dropWhile isPyWS).reverse.dropWhile isPyWS).reverse)

def readArns (lines : List String) : List String :=
  lines.filterMap (fun l =>
    let t := pyStrip l
    if t.data.isEmpty then none else some t)

/-- `filter_ssm_documents(input_file, output_file, old_runtimes_list)` with
file I/O abstracted: `inputLines = none` models `FileNotFoundError` on the
input file; the boto3 import is assumed available (its absence only
short-circuits the run before any logic). -/
def filter_ssm_documents (w : World) (inputLines : Option (List String))
    (old_runtimes_list : List String) : RunResult :=
  match inputLines with
  | none => .result false none [] []
  | some lines =>
    let arns_to_process := readArns lines
    if arns_to_process.isEmpty then
      if w.writeOk then .result true (some []) [] []
      else .result false none [] []
    else
      match processArns w old_runtimes_list arns_to_process 0 initState with
      | (st, .aborted) => .result false none st.events st.fetches
      | (st, .crashed) => .crashed st.events st.fetches
      | (st, .completed) =>
        if w.writeOk then .result true (some st.filtered) st.events st.fetches
        else .result false none st.events st.fetches

/-! ## Spec-side definitions

These definitions follow the specification's words rather than the code;
the claims compare the code's behaviour against them. -/

/-- The documented ARN shape, following the spec: the whole string is
`arn:aws:ssm:<region>:<account-id>:document/<name>` with `region` and
`account-id` nonempty and colon-free and `name` the entire remainder
(slashes allowed, extending to the end of the string). -/
def ExactShape (s region account name : String) : Prop :=
  s = "arn:aws:ssm:" ++ region ++ ":" ++ account ++ ":document/" ++ name ∧
  region.data ≠ [] ∧ ':' ∉ region.data ∧ account.data ≠ [] ∧ ':' ∉ account.data

/-- The per-item verdict the output characterisation uses: the line parses
(with truthy region and name), its document fetch yields truthy content,
and the classifier answers `true`. -/
def qualifiesB (w : World) (old_runtimes_list : List String) (arn : String) : Bool :=
  match regionName arn with
  | none => false
  | some (region, doc_name) =>
    match get_document_content w region doc_name with
    | none => false
    | some v =>
      if v.isTruthy then
        match has_outdated_python_runtime v old_runtimes_list with
        | .ok b => b
        | .error _ => false
      else false

/-- The claim's characterisation of an outdated document, following the
spec's words: some entry of the `mainSteps` *array* is an object whose
`action` equals `"aws:executeScript"` and whose `inputs.Runtime` value is a
string belonging to the denylist. -/
def SpecHasOutdatedStep (content : JValue) (old_runtimes_list : List String) : Prop :=
  ∃ steps : List JValue, content.getField "mainSteps" = some (.arr steps) ∧
    ∃ step ∈ steps, ∃ fields, step = JValue.obj fields ∧
      step.getField "action" = some (.str "aws:executeScript") ∧
      ∃ inputs, step.getField "inputs" = some inputs ∧
        ∃ r, inputs.getField "Runtime" = some (.str r) ∧ r ∈ old_runtimes_list

/-- Regions of the successful client constructions in a trace, in order. -/
def okRegions (es : List BuildEvent) : List String :=
  (es.filter (fun e => e.2.2 == MkClientResult.ok)).map (fun e => e.2.1)

/-- A construction trace is consistent when every attempt concerns a region
with no earlier successful construction. -/
def ConsTrace (es : List BuildEvent) : Prop :=
  ∀ l e m, es = l ++ e :: m → e.2.1 ∉ okRegions l

/-- The collaborator never signals a credentials failure at client
construction. -/
def NoCreds (w : World) : Prop :=
  ∀ i region, w.mkClient i region ≠ .credsError

/-- Every truthy fetched content classifies without an exception (its
`mainSteps`, if present, is iterable). -/
def SafeW (w : World) (old_runtimes_list : List String) : Prop :=
  ∀ region doc_name v, get_document_content w region doc_name = some v →
    v.isTruthy = true → ∃ b, has_outdated_python_runtime v old_runtimes_list = .ok b

/-! ## Concrete test data

Shared concrete documents, ARNs and collaborator behaviours used by the
counterexamples and witnesses below. -/

/-- A script step declaring the `python3.7` runtime. -/
def stepPy37 : JValue :=
  .obj [("action", .str "aws:executeScript"),
        ("inputs", .obj [("Runtime", .str "python3.7")])]

/-- A document whose single step qualifies for the `python3.7` denylist
entry (the spec's concrete scenario). -/
def docOutdated : JValue := .obj [("mainSteps", .arr [stepPy37])]

def arnMyDoc : String := "arn:aws:ssm:us-east-1:123456789012:document/MyDoc"

def arnDocB : String := "arn:aws:ssm:us-east-1:123456789012:document/DocB"

/-- Collaborator that always constructs clients, always returns
`docOutdated`, and can write the output. -/
def wAllOk : World :=
  { mkClient := fun _ _ => .ok
    getDocument := fun _ _ => .success (.json docOutdated)
    writeOk := true }

/-- Collaborator whose fetch of `MyDoc` raises a credentials error (landing
in `get_document_content`'s generic handler); every other behaviour is
`wAllOk`'s. -/
def wFetchCreds : World :=
  { mkClient := fun _ _ => .ok
    getDocument := fun _ doc_name =>
      if doc_name = "MyDoc" then .credsError else .success (.json docOutdated)
    writeOk := true }

/-- Collaborator whose every client construction raises a credentials
error. -/
def wCreds : World :=
  { mkClient := fun _ _ => .credsError
    getDocument := fun _ _ => .success (.json docOutdated)
    writeOk := true }

/-- A second, syntactically distinct collaborator extensionally equal to
`wAllOk`. -/
def wAllOk2 : World :=
  { mkClient := fun _ region => if region = region then .ok else .ok
    getDocument := fun _ _ => .success (.json docOutdated)
    writeOk := true }

/-! ## Lemmas about the ARN parser -/

theorem dropLit_eq : ∀ (l cs r : List Char), dropLit l cs = some r → cs = l ++ r
  | [], cs, r, h => by simpa [dropLit] using Option.some.inj h
  | _ :: _, [], _, h => by simp [dropLit] at h
  | l :: ls, c :: cs, r, h => by
    by_cases hc : c = l
    · simp only [dropLit, if_pos hc] at h
      simpa [hc] using congrArg (c :: ·) (dropLit_eq ls cs r h)
    · simp [dropLit, if_neg hc] at h

theorem dropLit_self : ∀ (l r : List Char), dropLit l (l ++ r) = some r
  | [], r => rfl
  | c :: ls, r => by simp [dropLit, dropLit_self ls r]

theorem takeWhile_of_all {α : Type} {p : α → Bool} :
    ∀ l : List α, (∀ c ∈ l, p c = true) → l.takeWhile p = l
  | [], _ => rfl
  | c :: l, h => by
    simp [List.takeWhile_cons, h c (by simp), takeWhile_of_all l (fun x hx => h x (by simp [hx]))]

theorem mem_of_takeWhile {α : Type} {p : α → Bool} :
    ∀ {l : List α} {a : α}, a ∈ l.takeWhile p → p a = true ∧ a ∈ l := by
  intro l
  induction l with
  | nil => intro a h; simp [List.takeWhile] at h
  | cons c l ih =>
    intro a h
    rw [List.takeWhile_cons] at h
    by_cases hc : p c = true
    · simp only [hc, if_true] at h
      rcases List.mem_cons.mp h with h1 | h1
      · exact ⟨h1 ▸ hc, by simp [h1]⟩
      · exact ⟨(ih h1).1, by simp [(ih h1).2]⟩
    · simp [hc] at h

theorem span_exact {α : Type} {p : α → Bool} :
    ∀ (l : List α) (x : α) (t : List α), (∀ c ∈ l, p c = true) → p x = false →
      (l ++ x :: t).takeWhile p = l ∧ (l ++ x :: t).dropWhile p = x :: t
  | [], x, t, _, hx => by simp [List.takeWhile_cons, List.dropWhile_cons, hx]
  | c :: l, x, t, h, hx => by
    have hc : p c = true := h c (by simp)
    have ih := span_exact l x t (fun y hy => h y (by simp [hy])) hx
    simp [List.takeWhile_cons, List.dropWhile_cons, hc, ih.1, ih.2]

theorem dropWhile_head_false {α : Type} {p : α → Bool} :
    ∀ {l : List α} {c : α} {t : List α}, l.dropWhile p = c :: t → p c = false := by
  intro l
  induction l with
  | nil => intro c t h; simp [List.dropWhile] at h
  | cons a l ih =>
    intro c t h
    rw [List.dropWhile_cons] at h
    by_cases ha : p a = true
    · simp only [ha, if_true] at h; exact ih h
    · simp only [Bool.not_eq_true] at ha
      simp only [ha, Bool.false_eq_true, if_false] at h
      injection h with h1 h2
      exact h1 ▸ ha

theorem chompSeg_sound {cs seg r : List Char} (h : chompSeg cs = some (seg, r)) :
    cs = seg ++ ':' :: r ∧ seg ≠ [] ∧ ∀ c ∈ seg, c ≠ ':' := by
  rw [chompSeg] at h
  split at h
  · exact absurd h (by simp)
  next hse =>
    split at h
    · exact absurd h (by simp)
    next hre =>
      simp only [Option.some.injEq, Prod.mk.injEq] at h
      obtain ⟨h1, h2⟩ := h
      have hne : cs.dropWhile (fun c => c != ':') ≠ [] := by
        intro hx; rw [hx] at hre; exact hre rfl
      obtain ⟨c, t, hct⟩ := List.exists_cons_of_ne_nil hne
      have hcc : c = ':' := by
        have := dropWhile_head_false hct
        simpa [bne_eq_false_iff_eq] using this
      refine ⟨?_, ?_, ?_⟩
      · calc cs = cs.takeWhile (fun c => c != ':') ++ cs.dropWhile (fun c => c != ':') :=
              (List.takeWhile_append_dropWhile ..).symm
          _ = seg ++ ':' :: r := by rw [h1, hct, hcc]; simp [← h2, hct]
      · intro hx
        apply hse
        rw [h1, hx]
        rfl
      · intro c2 hc2
        have := mem_of_takeWhile (h1 ▸ hc2 : c2 ∈ cs.takeWhile (fun c => c != ':'))
        simpa [bne_iff_ne] using this.1

theorem chompSeg_complete {seg r : List Char} (hn : seg ≠ []) (hc : ∀ c ∈ seg, c ≠ ':') :
    chompSeg (seg ++ ':' :: r) = some (seg, r) := by
  have hall : ∀ c ∈ seg, (fun c => c != ':') c = true := by
    intro c hm; simpa [bne_iff_ne] using hc c hm
  have hsp := span_exact seg ':' r hall (by simp)
  rw [chompSeg]
  simp only [hsp.1, hsp.2]
  simp [List.isEmpty_iff, hn]

theorem parseCore_sound {cs : List Char} {region account : String} {rest : List Char}
    (h : parseCore cs = some (region, account, rest)) :
    cs = "arn:aws:ssm:".data ++ (region.data ++ ':' :: (account.data ++ ':' :: ("document/".data ++ rest))) ∧
    region.data ≠ [] ∧ (∀ c ∈ region.data, c ≠ ':') ∧
    account.data ≠ [] ∧ (∀ c ∈ account.data, c ≠ ':') := by
  rw [parseCore] at h
  split at h
  · exact absurd h (by simp)
  next r1 hd =>
    split at h
    · exact absurd h (by simp)
    next rl r3 hc1 =>
      split at h
      · exact absurd h (by simp)
      next al r5 hc2 =>
        split at h
        · exact absurd h (by simp)
        next r6 hd2 =>
          simp only [Option.some.injEq, Prod.mk.injEq] at h
          obtain ⟨hreg, hacc, hrest⟩ := h
          obtain ⟨e1, n1, f1⟩ := chompSeg_sound hc1
          obtain ⟨e2, n2, f2⟩ := chompSeg_sound hc2
          have e0 : cs = "arn:aws:ssm:".data ++ r1 := dropLit_eq _ _ _ hd
          have e3 : r5 = "document/".data ++ r6 := dropLit_eq _ _ _ hd2
          subst hreg hacc hrest
          refine ⟨?_, n1, f1, n2, f2⟩
          rw [e0, e1, e2, e3]

theorem parseCore_complete {rl al rest : List Char}
    (hr : rl ≠ []) (hrc : ∀ c ∈ rl, c ≠ ':') (ha : al ≠ []) (hac : ∀ c ∈ al, c ≠ ':') :
    parseCore ("arn:aws:ssm:".data ++ (rl ++ ':' :: (al ++ ':' :: ("document/".data ++ rest))))
      = some (String.mk rl, String.mk al, rest) := by
  rw [parseCore, dropLit_self]
  simp only [chompSeg_complete hr hrc, chompSeg_complete ha hac, dropLit_self]

/-! ## Claim C4: the ARN parser against the documented shape -/

theorem stringDataEq : ∀ {s t : String}, s.data = t.data → s = t
  | ⟨_⟩, ⟨_⟩, h => by simp only [] at h; rw [h]

theorem exact_data (r a n : String) :
    ("arn:aws:ssm:" ++ r ++ ":" ++ a ++ ":document/" ++ n : String).data
      = "arn:aws:ssm:".data ++ (r.data ++ ':' :: (a.data ++ ':' :: ("document/".data ++ n.data))) := by
  have h1 : (":" : String).data = [':'] := rfl
  have h2 : (":document/" : String).data = ':' :: "document/".data := rfl
  simp [String.data_append, h1, h2]

/-- C4 (amended): for every input string *containing no newline*, `parse_arn`
either returns the pair `(region, name)` of an exact decomposition of the
whole string in the shape `arn:aws:ssm:<region>:<account-id>:document/<name>`
(name greedy to the end, slashes allowed), or fails with nothing extracted;
it never raises. (For a string with a newline after `document/` the name is
truncated at the newline — see the counterexample.) -/
theorem claim4_parse_exact_amended (s : String) (hnl : '\n' ∉ s.data) :
    (parse_arn s = (none, none) ∧ ∀ r a n, ¬ ExactShape s r a n) ∨
    (∃ r a n, parse_arn s = (some r, some n) ∧ ExactShape s r a n) := by
  cases hp : parseCore s.data with
  | none =>
    left
    refine ⟨by simp [parse_arn, hp], ?_⟩
    rintro r a n ⟨heq, hr, hrc, ha, hac⟩
    have hdata : s.data =
        "arn:aws:ssm:".data ++ (r.data ++ ':' :: (a.data ++ ':' :: ("document/".data ++ n.data))) := by
      rw [heq]; exact exact_data r a n
    have hc := @parseCore_complete r.data a.data n.data hr
      (fun c hc he => hrc (he ▸ hc)) ha (fun c hc he => hac (he ▸ hc))
    rw [hdata, hc] at hp
    cases hp
  | some t =>
    obtain ⟨r, a, rest⟩ := t
    right
    obtain ⟨hdata, hrne, hrc, hane, hac⟩ := parseCore_sound hp
    have hall : ∀ c ∈ rest, (fun c => c != '\n') c = true := by
      intro c hc
      have hmem : c ∈ s.data := by rw [hdata]; simp [hc]
      have hne : c ≠ '\n' := fun he => hnl (he ▸ hmem)
      simpa [bne_iff_ne] using hne
    refine ⟨r, a, String.mk rest, ?_, ?_, hrne,
      fun hm => hrc ':' hm rfl, hane, fun hm => hac ':' hm rfl⟩
    · simp [parse_arn, hp, takeWhile_of_all rest hall]
    · apply stringDataEq
      rw [hdata, exact_data]

/-- C4 counterexample: on `"arn:aws:ssm:r1:123:document/x\ny"` (a newline in
the name position) `parse_arn` extracts `("r1", "x")`, yet no decomposition
of the whole string has name `"x"`: the regex has no end anchor and `.`
does not match a newline, so the extraction is partial, contradicting the
claim. -/
theorem claim4_counterexample :
    parse_arn "arn:aws:ssm:r1:123:document/x\ny" = (some "r1", some "x") ∧
    ∀ a : String, ¬ ExactShape "arn:aws:ssm:r1:123:document/x\ny" "r1" a "x" := by
  refine ⟨rfl, ?_⟩
  rintro a ⟨heq, -, -, -, -⟩
  have h2 := congrArg (fun t : String => t.data.reverse.head?) heq
  have hL : ("arn:aws:ssm:r1:123:document/x\ny" : String).data.reverse.head? = some 'y' := rfl
  have hR : ("arn:aws:ssm:" ++ "r1" ++ ":" ++ a ++ ":document/" ++ "x" : String).data.reverse.head?
      = some 'x' := by
    have hx : ("x" : String).data = ['x'] := rfl
    simp [String.data_append, List.reverse_append, hx]
  simp only [] at h2
  rw [hL, hR] at h2
  cases h2

/-- Witness for C4's amended theorem at the newline-free input `arnMyDoc`. -/
theorem claim4_witness :
    (parse_arn arnMyDoc = (none, none) ∧ ∀ r a n, ¬ ExactShape arnMyDoc r a n) ∨
    (∃ r a n, parse_arn arnMyDoc = (some r, some n) ∧ ExactShape arnMyDoc r a n) :=
  claim4_parse_exact_amended arnMyDoc (by decide)

/-! ## Claims C1 and C5: the document classifier -/

theorem lookupLast_ne_nil {fields : List (String × JValue)} {k : String} {v : JValue}
    (h : lookupLast fields k = some v) : fields ≠ [] := by
  cases fields with
  | nil => simp [lookupLast] at h
  | cons a l => simp

theorem getField_obj_truthy {v : JValue} {k : String} {x : JValue} (h : v.getField k = some x) :
    v.isObj = true ∧ v.isTruthy = true := by
  cases v with
  | obj fields =>
    refine ⟨rfl, ?_⟩
    have := lookupLast_ne_nil (h : lookupLast fields k = some x)
    simp [JValue.isTruthy, List.isEmpty_iff, this]
  | null => simp [JValue.getField] at h
  | bool b => simp [JValue.getField] at h
  | num n => simp [JValue.getField] at h
  | str s => simp [JValue.getField] at h
  | arr xs => simp [JValue.getField] at h

theorem stepQualifies_spec {old : List String} {step : JValue}
    (h : stepQualifies old step = true) :
    ∃ fields, step = JValue.obj fields ∧
      step.getField "action" = some (.str "aws:executeScript") ∧
      ∃ inputs, step.getField "inputs" = some inputs ∧
        ∃ r, inputs.getField "Runtime" = some (.str r) ∧ r ∈ old := by
  cases step with
  | obj fields =>
    rw [stepQualifies] at h
    simp only [Bool.and_eq_true] at h
    obtain ⟨ha, hi⟩ := h
    refine ⟨fields, rfl, ?_, ?_⟩
    · cases hact : (JValue.obj fields).getField "action" with
      | none => rw [hact] at ha; cases ha
      | some av =>
        rw [hact] at ha
        cases av with
        | str a =>
          have has : a = "aws:executeScript" := by simpa using ha
          subst has
          rfl
        | null => cases ha
        | bool b => cases ha
        | num n => cases ha
        | arr xs => cases ha
        | obj f2 => cases ha
    · cases hgi : (JValue.obj fields).getField "inputs" with
      | none =>
        rw [hgi] at hi
        simp [lookupLast, JValue.getField] at hi
      | some inp =>
        rw [hgi] at hi
        refine ⟨inp, rfl, ?_⟩
        cases inp with
        | obj f3 =>
          simp only [Option.getD_some] at hi
          cases hrt : (JValue.obj f3).getField "Runtime" with
          | none => rw [hrt] at hi; cases hi
          | some rv =>
            rw [hrt] at hi
            cases rv with
            | str r =>
              refine ⟨r, rfl, ?_⟩
              simpa using hi
            | null => cases hi
            | bool b => cases hi
            | num n => cases hi
            | arr xs => cases hi
            | obj f4 => cases hi
        | null => simp at hi
        | bool b => simp at hi
        | num n => simp at hi
        | str s => simp at hi
        | arr xs => simp at hi
  | null => cases h
  | bool b => cases h
  | num n => cases h
  | str s => cases h
  | arr xs => cases h

theorem stepQualifies_of_spec {old : List String} {step : JValue} {fields : List (String × JValue)}
    {inputs : JValue} {r : String}
    (he : step = JValue.obj fields)
    (ha : step.getField "action" = some (.str "aws:executeScript"))
    (hi : step.getField "inputs" = some inputs)
    (hr : inputs.getField "Runtime" = some (.str r)) (hm : r ∈ old) :
    stepQualifies old step = true := by
  subst he
  rw [stepQualifies]
  simp only [Bool.and_eq_true]
  refine ⟨by rw [ha]; simp, ?_⟩
  rw [hi]
  simp only [Option.getD_some]
  cases inputs with
  | obj f3 => rw [hr]; simpa using hm
  | null => simp [JValue.getField] at hr
  | bool b => simp [JValue.getField] at hr
  | num n => simp [JValue.getField] at hr
  | str s => simp [JValue.getField] at hr
  | arr xs => simp [JValue.getField] at hr

/-- C1: the classifier answers `.ok true` exactly when some entry of the
document's `mainSteps` array is an object whose `action` equals
`"aws:executeScript"` and whose `inputs.Runtime` is a denylist member; in
all other non-raising situations (missing/non-object content, absent
`mainSteps`, non-matching steps) it answers `.ok false`, and a qualifying
first step forces `.ok true` whatever the remaining steps are (they are
not inspected). -/
theorem claim1_classifier_iff (content : JValue) (old : List String) :
    (has_outdated_python_runtime content old = .ok true ↔
      SpecHasOutdatedStep content old) ∧
    (∀ step rest, stepQualifies old step = true →
      has_outdated_python_runtime (.obj [("mainSteps", .arr (step :: rest))]) old = .ok true) := by
  constructor
  · constructor
    · intro h
      rw [has_outdated_python_runtime] at h
      split at h
      · cases h
      next hcond =>
        split at h
        · cases h
        next steps hpi =>
          injection h with h
          obtain ⟨s, hsmem, hsq⟩ := List.any_eq_true.mp h
          cases hms : content.getField "mainSteps" with
          | none =>
            rw [hms] at hpi
            simp only [Option.getD_none, pyIter, Option.some.injEq] at hpi
            subst hpi
            cases hsmem
          | some v =>
            rw [hms] at hpi
            simp only [Option.getD_some] at hpi
            cases v with
            | arr xs =>
              simp only [pyIter, Option.some.injEq] at hpi
              subst hpi
              obtain ⟨fields, he, hact2, inputs, hinp, r, hrt, hrm⟩ := stepQualifies_spec hsq
              exact ⟨_, hms, s, hsmem, fields, he, hact2, inputs, hinp, r, hrt, hrm⟩
            | str s1 =>
              simp only [pyIter, Option.some.injEq] at hpi
              subst hpi
              obtain ⟨c, -, hc⟩ := List.mem_map.mp hsmem
              rw [← hc] at hsq
              cases hsq
            | obj f1 =>
              simp only [pyIter, Option.some.injEq] at hpi
              subst hpi
              obtain ⟨c, -, hc⟩ := List.mem_map.mp hsmem
              rw [← hc] at hsq
              cases hsq
            | null => cases hpi
            | bool b => cases hpi
            | num n => cases hpi
    · intro hspec
      obtain ⟨steps, hms, step, hmem, fields, he, hact2, inputs, hinp, r, hrt, hrm⟩ := hspec
      have hobj := getField_obj_truthy hms
      rw [has_outdated_python_runtime]
      rw [if_neg (by simp [hobj.1, hobj.2])]
      rw [hms]
      simp only [Option.getD_some, pyIter]
      have : steps.any (stepQualifies old) = true :=
        List.any_eq_true.mpr ⟨step, hmem, stepQualifies_of_spec he hact2 hinp hrt hrm⟩
      rw [this]
  · intro step rest h
    have h1 : (JValue.obj [("mainSteps", JValue.arr (step :: rest))]).getField "mainSteps"
        = some (.arr (step :: rest)) := by simp [JValue.getField, lookupLast]
    rw [has_outdated_python_runtime]
    rw [if_neg (by simp [JValue.isTruthy, JValue.isObj])]
    rw [h1]
    simp [pyIter, List.any_cons, h]

/-- Witness for C1 at the spec's concrete scenario: the single qualifying
step classifies the document `.ok true`. -/
theorem claim1_witness :
    stepQualifies ["python3.7"] stepPy37 = true ∧
    has_outdated_python_runtime (.obj [("mainSteps", .arr [stepPy37])]) ["python3.7"] = .ok true :=
  ⟨by decide,
   (claim1_classifier_iff (.obj [("mainSteps", .arr [stepPy37])]) ["python3.7"]).2
     stepPy37 [] (by decide)⟩

/-- C5 counterexample: on the JSON object `{"mainSteps": null}` (a wrong
type for `mainSteps`) the classifier does not return a boolean: iterating
the non-iterable value raises `TypeError`, contradicting the claim that no
exception is ever raised. -/
theorem claim5_counterexample :
    has_outdated_python_runtime (.obj [("mainSteps", .null)]) ["python3.7"] = .error () := rfl

/-- C5 (amended): for every document content whose `mainSteps` value,
after defaulting to `[]`, is Python-iterable (an array, a string or an
object), and every denylist, the classifier returns a boolean and never
raises; a truthy object whose `mainSteps` is null, a boolean or a number
instead raises `TypeError` (see the counterexample). -/
theorem claim5_no_raise_amended (content : JValue) (old : List String)
    (h : (pyIter ((content.getField "mainSteps").getD (.arr []))).isSome = true) :
    ∃ b, has_outdated_python_runtime content old = .ok b := by
  by_cases hc : (!content.isTruthy || !content.isObj) = true
  · exact ⟨false, by rw [has_outdated_python_runtime, if_pos hc]⟩
  · obtain ⟨steps, hs⟩ := Option.isSome_iff_exists.mp h
    exact ⟨_, by rw [has_outdated_python_runtime, if_neg hc, hs]⟩

/-- Witness for C5's amended theorem at `docOutdated`. -/
theorem claim5_witness :
    (pyIter ((docOutdated.getField "mainSteps").getD (.arr []))).isSome = true ∧
    ∃ b, has_outdated_python_runtime docOutdated ["python3.7"] = .ok b :=
  ⟨by decide, claim5_no_raise_amended docOutdated ["python3.7"] (by decide)⟩

/-! ## Step equations of the driver loop -/

theorem processArns_cons_none {w : World} {old : List String} {arn : String}
    {rest : List String} {i : Nat} {st : LoopState} (h : regionName arn = none) :
    processArns w old (arn :: rest) i st = processArns w old rest (i + 1) st := by
  rw [processArns, h]

theorem processArns_cons_abort {w : World} {old : List String} {arn : String}
    {rest : List String} {i : Nat} {st st1 : LoopState} {region doc_name : String}
    (h : regionName arn = some (region, doc_name))
    (hcs : clientStep w i region st = (st1, .abortRun)) :
    processArns w old (arn :: rest) i st = (st1, .aborted) := by
  rw [processArns, h]
  simp only [hcs]

theorem processArns_cons_skip {w : World} {old : List String} {arn : String}
    {rest : List String} {i : Nat} {st st1 : LoopState} {region doc_name : String}
    (h : regionName arn = some (region, doc_name))
    (hcs : clientStep w i region st = (st1, .skipItem)) :
    processArns w old (arn :: rest) i st = processArns w old rest (i + 1) st1 := by
  rw [processArns, h]
  simp only [hcs]

theorem processArns_cons_fetch_none {w : World} {old : List String} {arn : String}
    {rest : List String} {i : Nat} {st st1 : LoopState} {region doc_name : String}
    (h : regionName arn = some (region, doc_name))
    (hcs : clientStep w i region st = (st1, .ready))
    (hgd : get_document_content w region doc_name = none) :
    processArns w old (arn :: rest) i st =
      processArns w old rest (i + 1) {st1 with fetches := st1.fetches ++ [(region, doc_name)]} := by
  rw [processArns, h]
  simp only [hcs, hgd]

theorem processArns_cons_fetch_falsy {w : World} {old : List String} {arn : String}
    {rest : List String} {i : Nat} {st st1 : LoopState} {region doc_name : String} {v : JValue}
    (h : regionName arn = some (region, doc_name))
    (hcs : clientStep w i region st = (st1, .ready))
    (hgd : get_document_content w region doc_name = some v)
    (htr : v.isTruthy = false) :
    processArns w old (arn :: rest) i st =
      processArns w old rest (i + 1) {st1 with fetches := st1.fetches ++ [(region, doc_name)]} := by
  rw [processArns, h]
  simp only [hcs, hgd, htr, Bool.false_eq_true, if_false]

theorem processArns_cons_crash {w : World} {old : List String} {arn : String}
    {rest : List String} {i : Nat} {st st1 : LoopState} {region doc_name : String} {v : JValue}
    {e : Unit}
    (h : regionName arn = some (region, doc_name))
    (hcs : clientStep w i region st = (st1, .ready))
    (hgd : get_document_content w region doc_name = some v)
    (htr : v.isTruthy = true)
    (hcl : has_outdated_python_runtime v old = .error e) :
    processArns w old (arn :: rest) i st =
      ({st1 with fetches := st1.fetches ++ [(region, doc_name)]}, .crashed) := by
  rw [processArns, h]
  simp only [hcs, hgd, htr, if_true, hcl]

theorem processArns_cons_classified {w : World} {old : List String} {arn : String}
    {rest : List String} {i : Nat} {st st1 : LoopState} {region doc_name : String} {v : JValue}
    {b : Bool}
    (h : regionName arn = some (region, doc_name))
    (hcs : clientStep w i region st = (st1, .ready))
    (hgd : get_document_content w region doc_name = some v)
    (htr : v.isTruthy = true)
    (hcl : has_outdated_python_runtime v old = .ok b) :
    processArns w old (arn :: rest) i st =
      processArns w old rest (i + 1)
        (if b then
          ⟨st1.cache, st1.filtered ++ [arn], st1.events, st1.fetches ++ [(region, doc_name)]⟩
         else {st1 with fetches := st1.fetches ++ [(region, doc_name)]}) := by
  rw [processArns, h]
  cases b with
  | true => simp only [hcs, hgd, htr, if_true, hcl]
  | false => simp only [hcs, hgd, htr, if_true, hcl, Bool.false_eq_true, if_false]

/-! ## Claim C10: empty document name -/

/-- C10: on every input line of the shape
`arn:aws:ssm:<region>:<account-id>:document/` with an empty document name
(region and account-id arbitrary nonempty colon-free segments), the parser
itself succeeds and returns the pair of the region and `""`, but the
driver's falsiness check treats the empty name as a parse failure: the
line is skipped with the loop state untouched (no client construction, no
fetch, nothing appended to the output) and processing continues with the
remaining lines. -/
theorem claim10_empty_name (region account : String)
    (hr : region.data ≠ []) (hrc : ':' ∉ region.data)
    (ha : account.data ≠ []) (hac : ':' ∉ account.data) :
    parse_arn ("arn:aws:ssm:" ++ region ++ ":" ++ account ++ ":document/")
      = (some region, some "") ∧
    ∀ w old rest i st,
      processArns w old
          (("arn:aws:ssm:" ++ region ++ ":" ++ account ++ ":document/") :: rest) i st =
        processArns w old rest (i + 1) st := by
  have h1 : (":" : String).data = [':'] := rfl
  have h2 : (":document/" : String).data = ':' :: "document/".data := rfl
  have hd : ("arn:aws:ssm:" ++ region ++ ":" ++ account ++ ":document/" : String).data
      = "arn:aws:ssm:".data ++ (region.data ++ ':' :: (account.data ++ ':' :: "document/".data)) := by
    simp [String.data_append, h1, h2]
  have hp := @parseCore_complete region.data account.data []
    hr (fun c hc he => hrc (he ▸ hc)) ha (fun c hc he => hac (he ▸ hc))
  rw [List.append_nil] at hp
  have hps : parseCore ("arn:aws:ssm:" ++ region ++ ":" ++ account ++ ":document/" : String).data
      = some (region, account, []) := by
    rw [hd]
    exact hp
  have hparse : parse_arn ("arn:aws:ssm:" ++ region ++ ":" ++ account ++ ":document/")
      = (some region, some "") := by
    rw [parse_arn, hps]
    rfl
  refine ⟨hparse, ?_⟩
  intro w old rest i st
  have hrn : regionName ("arn:aws:ssm:" ++ region ++ ":" ++ account ++ ":document/") = none := by
    rw [regionName, hparse]
    simp
  exact processArns_cons_none hrn

/-- Witness for C10 at region `us-east-1` and account `123456789012`. -/
theorem claim10_witness :
    (("us-east-1" : String).data ≠ [] ∧ ':' ∉ ("us-east-1" : String).data ∧
     ("123456789012" : String).data ≠ [] ∧ ':' ∉ ("123456789012" : String).data) ∧
    (parse_arn ("arn:aws:ssm:" ++ "us-east-1" ++ ":" ++ "123456789012" ++ ":document/")
      = (some "us-east-1", some "") ∧
    ∀ w old rest i st,
      processArns w old
          (("arn:aws:ssm:" ++ "us-east-1" ++ ":" ++ "123456789012" ++ ":document/") :: rest) i st =
        processArns w old rest (i + 1) st) :=
  ⟨⟨by decide, by decide, by decide, by decide⟩,
   claim10_empty_name "us-east-1" "123456789012" (by decide) (by decide) (by decide) (by decide)⟩

/-! ## Claim C7: empty input -/

/-- C7: when the input file exists and every line is blank, the driver
writes an empty output file and returns success, for every collaborator
able to write the output — in particular no parsing, client construction
or fetch ever happens (the result's traces are empty and the oracle is
never consulted). -/
theorem claim7_empty_input (w : World) (lines : List String) (old : List String)
    (hb : ∀ l ∈ lines, pyStrip l = "") (hw : w.writeOk = true) :
    filter_ssm_documents w (some lines) old = .result true (some []) [] [] := by
  have hra : readArns lines = [] := by
    induction lines with
    | nil => rfl
    | cons l ls ih =>
      have h1 : pyStrip l = "" := hb l (by simp)
      have h2 := ih (fun x hx => hb x (by simp [hx]))
      simp only [readArns, List.filterMap_cons, h1] at h2 ⊢
      simpa using h2
  simp [filter_ssm_documents, hra, hw]

/-- Witness for C7 on two blank lines. -/
theorem claim7_witness :
    ((∀ l ∈ ["", "   "], pyStrip l = "") ∧ wAllOk.writeOk = true) ∧
    filter_ssm_documents wAllOk (some ["", "   "]) ["python3.7"] = .result true (some []) [] [] :=
  ⟨⟨by decide, rfl⟩, claim7_empty_input wAllOk ["", "   "] ["python3.7"] (by decide) rfl⟩

/-! ## Claim C8: determinism -/

/-- C8: the batch driver is deterministic — two runs on the same input
lines and denylist, with collaborators that construct clients, answer
fetches and accept the output write identically, produce the same result
(same output lines in the same order, same success flag). -/
theorem claim8_deterministic (w1 w2 : World) (inputLines : Option (List String))
    (old : List String)
    (hmc : ∀ i region, w1.mkClient i region = w2.mkClient i region)
    (hgd : ∀ region doc_name, w1.getDocument region doc_name = w2.getDocument region doc_name)
    (hwk : w1.writeOk = w2.writeOk) :
    filter_ssm_documents w1 inputLines old = filter_ssm_documents w2 inputLines old := by
  have he : w1 = w2 := by
    obtain ⟨f1, g1, b1⟩ := w1
    obtain ⟨f2, g2, b2⟩ := w2
    have hf : f1 = f2 := funext fun i => funext fun r => hmc i r
    have hg : g1 = g2 := funext fun r => funext fun n => hgd r n
    have hb : b1 = b2 := hwk
    rw [hf, hg, hb]
  rw [he]

/-- Witness for C8 on two extensionally equal collaborators. -/
theorem claim8_witness :
    filter_ssm_documents wAllOk (some [arnMyDoc]) ["python3.7"] =
      filter_ssm_documents wAllOk2 (some [arnMyDoc]) ["python3.7"] :=
  claim8_deterministic wAllOk wAllOk2 (some [arnMyDoc]) ["python3.7"]
    (fun _ _ => (if_pos rfl).symm) (fun _ _ => rfl) rfl

/-! ## Claim C2: credentials failures -/

/-- C2 (amended): a credentials failure during *per-region client
construction* aborts the run immediately — the remaining lines are never
processed and the driver returns `success = false` with nothing written.
A credentials failure during a *document fetch*, however, is caught by
`get_document_content`'s generic `except Exception` handler and handled by
skipping that item (see the counterexample), so only the
construction-time half of the original claim holds. -/
theorem claim2_creds_abort_amended :
    (∀ (w : World) (old : List String) (arn : String) (rest : List String) (i : Nat)
        (st : LoopState) (region doc_name : String),
      regionName arn = some (region, doc_name) → region ∉ st.cache →
      w.mkClient i region = .credsError →
      processArns w old (arn :: rest) i st =
        ({st with events := st.events ++ [(i, region, .credsError)]}, .aborted)) ∧
    (∀ (w : World) (lines : List String) (old : List String) (st : LoopState),
      processArns w old (readArns lines) 0 initState = (st, .aborted) →
      filter_ssm_documents w (some lines) old = .result false none st.events st.fetches) := by
  constructor
  · intro w old arn rest i st region doc_name hrn hnc hmc
    rw [processArns, hrn]
    simp only [clientStep, if_neg hnc, hmc]
  · intro w lines old st h
    rw [filter_ssm_documents]
    cases hie : (readArns lines).isEmpty
    · simp only [Bool.false_eq_true, if_false, h]
    · rw [List.isEmpty_iff] at hie
      rw [hie] at h
      cases h

/-- C2 counterexample: with a collaborator whose fetch of `MyDoc` raises a
credentials error, the run does not abort: the item is skipped, the next
line is still processed (and matched), and the driver returns success —
contradicting the claim that a credentials failure during a fetch aborts
the run with `success = false`. -/
theorem claim2_counterexample :
    filter_ssm_documents wFetchCreds (some [arnMyDoc, arnDocB]) ["python3.7"] =
      .result true (some [arnDocB]) [(0, "us-east-1", .ok)]
        [("us-east-1", "MyDoc"), ("us-east-1", "DocB")] := rfl

/-- Witness for C2's amended theorem: a construction-time credentials
failure on the first line aborts with nothing written. -/
theorem claim2_witness :
    (regionName arnMyDoc = some ("us-east-1", "MyDoc") ∧
      "us-east-1" ∉ initState.cache ∧ wCreds.mkClient 0 "us-east-1" = .credsError) ∧
    processArns wCreds ["python3.7"] [arnMyDoc] 0 initState =
      ({initState with events := [(0, "us-east-1", .credsError)]}, .aborted) ∧
    filter_ssm_documents wCreds (some [arnMyDoc]) ["python3.7"] =
      .result false none [(0, "us-east-1", .credsError)] [] :=
  ⟨⟨rfl, by simp [initState], rfl⟩,
   claim2_creds_abort_amended.1 wCreds ["python3.7"] arnMyDoc [] 0 initState
     "us-east-1" "MyDoc" rfl (by simp [initState]) rfl,
   claim2_creds_abort_amended.2 wCreds [arnMyDoc] ["python3.7"]
     ⟨[], [], [(0, "us-east-1", .credsError)], []⟩ (by decide)⟩

/-! ## Claim C6: per-item failures skip and continue -/

theorem processArns_completes {w : World} {old : List String}
    (hnc : NoCreds w) (hsafe : SafeW w old) :
    ∀ (arns : List String) (i : Nat) (st : LoopState),
      ∃ st2, processArns w old arns i st = (st2, .completed) := by
  intro arns
  induction arns with
  | nil => intro i st; exact ⟨st, rfl⟩
  | cons arn rest ih =>
    intro i st
    cases hrn : regionName arn with
    | none => rw [processArns_cons_none hrn]; exact ih _ _
    | some rd =>
      obtain ⟨region, doc_name⟩ := rd
      have hready : ∃ st1, clientStep w i region st = (st1, .ready) ∨
          clientStep w i region st = (st1, .skipItem) := by
        by_cases hin : region ∈ st.cache
        · exact ⟨st, .inl (by simp [clientStep, if_pos hin])⟩
        · cases hmc : w.mkClient i region with
          | ok =>
            exact ⟨{st with cache := st.cache ++ [region],
                            events := st.events ++ [(i, region, .ok)]},
              .inl (by simp [clientStep, if_neg hin, hmc])⟩
          | credsError => exact absurd hmc (hnc i region)
          | clientError =>
            exact ⟨{st with events := st.events ++ [(i, region, .clientError)]},
              .inr (by simp [clientStep, if_neg hin, hmc])⟩
          | otherError =>
            exact ⟨{st with events := st.events ++ [(i, region, .otherError)]},
              .inr (by simp [clientStep, if_neg hin, hmc])⟩
      obtain ⟨st1, hcs | hcs⟩ := hready
      · cases hgd : get_document_content w region doc_name with
        | none => rw [processArns_cons_fetch_none hrn hcs hgd]; exact ih _ _
        | some v =>
          cases htr : v.isTruthy with
          | false => rw [processArns_cons_fetch_falsy hrn hcs hgd htr]; exact ih _ _
          | true =>
            obtain ⟨b, hb⟩ := hsafe region doc_name v hgd htr
            rw [processArns_cons_classified hrn hcs hgd htr hb]
            exact ih _ _
      · rw [processArns_cons_skip hrn hcs]; exact ih _ _

/-- C6: each per-item failure is handled by skipping exactly that item and
continuing — a malformed ARN leaves the loop state untouched; a
non-credentials client-construction failure only records the attempt (the
item is not in the output and the loop continues); a fetch failure (any
`ClientError`, a missing body, a JSON-decode failure, or any other
exception) only records the fetch; and a run whose collaborator never
raises a construction-time credentials error, whose contents classify
without exception, and whose output is writable ends with `success = true`. -/
theorem claim6_per_item_skip :
    (∀ (w : World) (old : List String) (arn : String) (rest : List String) (i : Nat)
        (st : LoopState),
       regionName arn = none →
       processArns w old (arn :: rest) i st = processArns w old rest (i + 1) st) ∧
    (∀ (w : World) (old : List String) (arn : String) (rest : List String) (i : Nat)
        (st : LoopState) (region doc_name : String),
       regionName arn = some (region, doc_name) → region ∉ st.cache →
       (w.mkClient i region = .clientError ∨ w.mkClient i region = .otherError) →
       processArns w old (arn :: rest) i st =
         processArns w old rest (i + 1)
           {st with events := st.events ++ [(i, region, w.mkClient i region)]}) ∧
    (∀ (w : World) (old : List String) (arn : String) (rest : List String) (i : Nat)
        (st st1 : LoopState) (region doc_name : String),
       regionName arn = some (region, doc_name) →
       clientStep w i region st = (st1, .ready) →
       get_document_content w region doc_name = none →
       processArns w old (arn :: rest) i st =
         processArns w old rest (i + 1)
           {st1 with fetches := st1.fetches ++ [(region, doc_name)]}) ∧
    (∀ (w : World) (lines : List String) (old : List String),
       NoCreds w → SafeW w old → w.writeOk = true →
       ∃ out ev fe, filter_ssm_documents w (some lines) old = .result true (some out) ev fe) := by
  refine ⟨?_, ?_, ?_, ?_⟩
  · intro w old arn rest i st h
    exact processArns_cons_none h
  · intro w old arn rest i st region doc_name hrn hin hmc
    rcases hmc with h | h
    · rw [h]
      exact processArns_cons_skip hrn (by simp [clientStep, if_neg hin, h])
    · rw [h]
      exact processArns_cons_skip hrn (by simp [clientStep, if_neg hin, h])
  · intro w old arn rest i st st1 region doc_name hrn hcs hgd
    exact processArns_cons_fetch_none hrn hcs hgd
  · intro w lines old hnc hsafe hw
    rw [filter_ssm_documents]
    cases hie : (readArns lines).isEmpty
    · obtain ⟨st2, hst⟩ := processArns_completes hnc hsafe (readArns lines) 0 initState
      simp only [Bool.false_eq_true, if_false, hst, hw, if_true]
      exact ⟨st2.filtered, st2.events, st2.fetches, rfl⟩
    · simp [hie, hw]

theorem wAllOk_noCreds : NoCreds wAllOk := fun i r h => by cases h

theorem wAllOk_safe (old : List String) : SafeW wAllOk old := by
  intro r n v hv htr
  injection hv with hv
  subst hv
  exact ⟨_, rfl⟩

/-- Witness for C6: a malformed line is skipped with the state unchanged,
and a run against the always-working collaborator succeeds. -/
theorem claim6_witness :
    (regionName "not-an-arn" = none ∧
      processArns wAllOk ["python3.7"] ["not-an-arn"] 0 initState =
        processArns wAllOk ["python3.7"] [] 1 initState) ∧
    (NoCreds wAllOk ∧ SafeW wAllOk ["python3.7"] ∧ wAllOk.writeOk = true) ∧
    (∃ out ev fe, filter_ssm_documents wAllOk (some [arnMyDoc]) ["python3.7"] =
      .result true (some out) ev fe) := by
  refine ⟨⟨rfl, claim6_per_item_skip.1 wAllOk ["python3.7"] "not-an-arn" [] 0 initState rfl⟩,
    ⟨wAllOk_noCreds, wAllOk_safe ["python3.7"], rfl⟩,
    claim6_per_item_skip.2.2.2 wAllOk [arnMyDoc] ["python3.7"]
      wAllOk_noCreds (wAllOk_safe ["python3.7"]) rfl⟩

/-! ## Claim C3: the output as a stable filter of the input -/

theorem processArns_filter {w : World} {old : List String}
    (hok : ∀ i region, w.mkClient i region = .ok) (hsafe : SafeW w old) :
    ∀ (arns : List String) (i : Nat) (st : LoopState), ∃ c2 ev fe,
      processArns w old arns i st =
        (⟨c2, st.filtered ++ arns.filter (qualifiesB w old), ev, fe⟩, .completed) := by
  intro arns
  induction arns with
  | nil =>
    intro i st
    exact ⟨st.cache, st.events, st.fetches,
      by rw [show processArns w old [] i st = (st, .completed) from rfl]; simp⟩
  | cons arn rest ih =>
    intro i st
    cases hrn : regionName arn with
    | none =>
      have hq : qualifiesB w old arn = false := by simp [qualifiesB, hrn]
      rw [processArns_cons_none hrn]
      obtain ⟨c2, ev, fe, h⟩ := ih (i + 1) st
      exact ⟨c2, ev, fe, by rw [h]; simp [List.filter_cons, hq]⟩
    | some rd =>
      obtain ⟨region, doc_name⟩ := rd
      obtain ⟨st1, hcs, hfil⟩ : ∃ st1, clientStep w i region st = (st1, .ready) ∧
          st1.filtered = st.filtered := by
        by_cases hin : region ∈ st.cache
        · exact ⟨st, by simp [clientStep, if_pos hin], rfl⟩
        · exact ⟨{st with cache := st.cache ++ [region],
                          events := st.events ++ [(i, region, .ok)]},
            by simp [clientStep, if_neg hin, hok i region], rfl⟩
      cases hgd : get_document_content w region doc_name with
      | none =>
        have hq : qualifiesB w old arn = false := by simp [qualifiesB, hrn, hgd]
        rw [processArns_cons_fetch_none hrn hcs hgd]
        obtain ⟨c2, ev, fe, h⟩ := ih (i + 1) _
        exact ⟨c2, ev, fe, by rw [h]; simp [List.filter_cons, hq, hfil]⟩
      | some v =>
        cases htr : v.isTruthy with
        | false =>
          have hq : qualifiesB w old arn = false := by simp [qualifiesB, hrn, hgd, htr]
          rw [processArns_cons_fetch_falsy hrn hcs hgd htr]
          obtain ⟨c2, ev, fe, h⟩ := ih (i + 1) _
          exact ⟨c2, ev, fe, by rw [h]; simp [List.filter_cons, hq, hfil]⟩
        | true =>
          obtain ⟨b, hb⟩ := hsafe region doc_name v hgd htr
          have hq : qualifiesB w old arn = b := by simp [qualifiesB, hrn, hgd, htr, hb]
          rw [processArns_cons_classified hrn hcs hgd htr hb]
          cases b with
          | true =>
            obtain ⟨c2, ev, fe, h⟩ := ih (i + 1)
              ⟨st1.cache, st1.filtered ++ [arn], st1.events,
                st1.fetches ++ [(region, doc_name)]⟩
            refine ⟨c2, ev, fe, ?_⟩
            simp only [if_true]
            rw [h]
            simp [List.filter_cons, hq, hfil, List.append_assoc]
          | false =>
            obtain ⟨c2, ev, fe, h⟩ := ih (i + 1)
              {st1 with fetches := st1.fetches ++ [(region, doc_name)]}
            refine ⟨c2, ev, fe, ?_⟩
            simp only [Bool.false_eq_true, if_false]
            rw [h]
            simp [List.filter_cons, hq, hfil]

/-- C3 (amended): for every run whose client constructions all succeed,
whose fetched contents classify without exception and whose output is
writable, the output written is exactly the stable filter of the
(stripped, non-blank) input occurrences by the per-item verdict
`qualifiesB`: qualifying occurrences appear in input order; an ARN
occurring several times appears once *per qualifying occurrence* — the
code does not deduplicate (see the counterexample), which is the only
departure from the original claim. -/
theorem claim3_stable_filter_amended (w : World) (lines : List String) (old : List String)
    (hok : ∀ i region, w.mkClient i region = .ok) (hsafe : SafeW w old)
    (hw : w.writeOk = true) :
    ∃ ev fe, filter_ssm_documents w (some lines) old =
      .result true (some ((readArns lines).filter (qualifiesB w old))) ev fe := by
  rw [filter_ssm_documents]
  cases hie : (readArns lines).isEmpty
  · obtain ⟨c2, ev, fe, h⟩ := processArns_filter hok hsafe (readArns lines) 0 initState
    simp only [Bool.false_eq_true, if_false, h, hw, if_true]
    exact ⟨ev, fe, by simp [initState]⟩
  · rw [List.isEmpty_iff] at hie
    simp [hie, hw]

/-- C3 counterexample: the same qualifying ARN listed twice in the input is
written twice — the output is not the deduplicated set of qualifying ARNs
the claim describes. -/
theorem claim3_counterexample :
    filter_ssm_documents wAllOk (some [arnMyDoc, arnMyDoc]) ["python3.7"] =
      .result true (some [arnMyDoc, arnMyDoc]) [(0, "us-east-1", .ok)]
        [("us-east-1", "MyDoc"), ("us-east-1", "MyDoc")] ∧
    [arnMyDoc, arnMyDoc] ≠ [arnMyDoc] := ⟨rfl, by simp⟩

/-- Witness for C3's amended theorem on a two-line input. -/
theorem claim3_witness :
    ∃ ev fe, filter_ssm_documents wAllOk (some [arnMyDoc, arnDocB]) ["python3.7"] =
      .result true
        (some ((readArns [arnMyDoc, arnDocB]).filter (qualifiesB wAllOk ["python3.7"]))) ev fe :=
  claim3_stable_filter_amended wAllOk [arnMyDoc, arnDocB] ["python3.7"]
    (fun _ _ => rfl) (wAllOk_safe ["python3.7"]) rfl

/-! ## Claim C9: the per-region client cache -/

theorem processArns_ready_continue {w : World} {old : List String} {arn : String}
    {rest : List String} {i : Nat} {st st1 : LoopState} {region doc_name : String}
    (hrn : regionName arn = some (region, doc_name))
    (hcs : clientStep w i region st = (st1, .ready)) :
    (∃ stc, processArns w old (arn :: rest) i st = (stc, .crashed) ∧
       stc.cache = st1.cache ∧ stc.events = st1.events) ∨
    (∃ st2, processArns w old (arn :: rest) i st = processArns w old rest (i + 1) st2 ∧
       st2.cache = st1.cache ∧ st2.events = st1.events ∧
       (st2.filtered = st1.filtered ∨ st2.filtered = st1.filtered ++ [arn])) := by
  cases hgd : get_document_content w region doc_name with
  | none =>
    exact .inr ⟨_, processArns_cons_fetch_none hrn hcs hgd, rfl, rfl, .inl rfl⟩
  | some v =>
    cases htr : v.isTruthy with
    | false =>
      exact .inr ⟨_, processArns_cons_fetch_falsy hrn hcs hgd htr, rfl, rfl, .inl rfl⟩
    | true =>
      cases hcl : has_outdated_python_runtime v old with
      | error e =>
        exact .inl ⟨_, processArns_cons_crash hrn hcs hgd htr hcl, rfl, rfl⟩
      | ok b =>
        cases b with
        | true =>
          refine .inr ⟨⟨st1.cache, st1.filtered ++ [arn], st1.events,
            st1.fetches ++ [(region, doc_name)]⟩, ?_, rfl, rfl, .inr rfl⟩
          have h := @processArns_cons_classified w old arn rest i st st1 region doc_name v
            true hrn hcs hgd htr hcl
          simpa using h
        | false =>
          refine .inr ⟨{st1 with fetches := st1.fetches ++ [(region, doc_name)]},
            ?_, rfl, rfl, .inl rfl⟩
          have h := @processArns_cons_classified w old arn rest i st st1 region doc_name v
            false hrn hcs hgd htr hcl
          simpa using h

theorem processArns_events_extend {w : World} {old : List String} :
    ∀ (arns : List String) (i : Nat) (st : LoopState), ∃ new,
      ((processArns w old arns i st).1).events = st.events ++ new := by
  intro arns
  induction arns with
  | nil => intro i st; exact ⟨[], by simp [show processArns w old [] i st = (st, .completed) from rfl]⟩
  | cons arn rest ih =>
    intro i st
    cases hrn : regionName arn with
    | none => rw [processArns_cons_none hrn]; exact ih _ _
    | some rd =>
      obtain ⟨region, doc_name⟩ := rd
      by_cases hin : region ∈ st.cache
      · have hcs : clientStep w i region st = (st, .ready) := by simp [clientStep, if_pos hin]
        rcases @processArns_ready_continue w old arn rest i st st region doc_name hrn hcs with
          ⟨stc, hq, -, hev⟩ | ⟨st2, hq, -, hev, -⟩
        · exact ⟨[], by rw [hq, hev]; simp⟩
        · obtain ⟨n2, h2⟩ := ih (i + 1) st2
          exact ⟨n2, by rw [hq, h2, hev]⟩
      · cases hmc : w.mkClient i region with
        | ok =>
          have hcs : clientStep w i region st =
              ({st with cache := st.cache ++ [region],
                        events := st.events ++ [(i, region, .ok)]}, .ready) := by
            simp [clientStep, if_neg hin, hmc]
          rcases @processArns_ready_continue w old arn rest i st
            {st with cache := st.cache ++ [region],
                     events := st.events ++ [(i, region, .ok)]} region doc_name hrn hcs with
            ⟨stc, hq, -, hev⟩ | ⟨st2, hq, -, hev, -⟩
          · exact ⟨[(i, region, .ok)], by rw [hq, hev]⟩
          · obtain ⟨n2, h2⟩ := ih (i + 1) st2
            exact ⟨(i, region, .ok) :: n2, by rw [hq, h2, hev]; simp⟩
        | credsError =>
          have hcs : clientStep w i region st =
              ({st with events := st.events ++ [(i, region, .credsError)]}, .abortRun) := by
            simp [clientStep, if_neg hin, hmc]
          rw [processArns_cons_abort hrn hcs]
          exact ⟨[(i, region, .credsError)], rfl⟩
        | clientError =>
          have hcs : clientStep w i region st =
              ({st with events := st.events ++ [(i, region, .clientError)]}, .skipItem) := by
            simp [clientStep, if_neg hin, hmc]
          rw [processArns_cons_skip hrn hcs]
          obtain ⟨n2, h2⟩ := ih (i + 1) _
          exact ⟨(i, region, .clientError) :: n2, by rw [h2]; simp⟩
        | otherError =>
          have hcs : clientStep w i region st =
              ({st with events := st.events ++ [(i, region, .otherError)]}, .skipItem) := by
            simp [clientStep, if_neg hin, hmc]
          rw [processArns_cons_skip hrn hcs]
          obtain ⟨n2, h2⟩ := ih (i + 1) _
          exact ⟨(i, region, .otherError) :: n2, by rw [h2]; simp⟩

theorem okRegions_append (l m : List BuildEvent) :
    okRegions (l ++ m) = okRegions l ++ okRegions m := by
  simp [okRegions, List.filter_append]

theorem okRegions_cons (e : BuildEvent) (es : List BuildEvent) :
    okRegions (e :: es) =
      (if e.2.2 = MkClientResult.ok then [e.2.1] else []) ++ okRegions es := by
  by_cases h : e.2.2 = MkClientResult.ok <;> simp [okRegions, List.filter_cons, h]

theorem mem_okRegions {es : List BuildEvent} {x : String} :
    x ∈ okRegions es ↔ ∃ e ∈ es, e.2.2 = MkClientResult.ok ∧ e.2.1 = x := by
  constructor
  · intro h
    obtain ⟨e, hef, hx⟩ := List.mem_map.mp h
    obtain ⟨hm, ho⟩ := List.mem_filter.mp hef
    exact ⟨e, hm, by simpa using ho, hx⟩
  · rintro ⟨e, hm, ho, hx⟩
    exact List.mem_map.mpr ⟨e, List.mem_filter.mpr ⟨hm, by simp [ho]⟩, hx⟩

theorem snoc_decomp {l m es : List BuildEvent} {e1 e : BuildEvent}
    (h : l ++ e1 :: m = es ++ [e]) :
    (m = [] ∧ l = es ∧ e1 = e) ∨ ∃ m1, m = m1 ++ [e] ∧ es = l ++ e1 :: m1 := by
  rcases List.eq_nil_or_concat m with hm | ⟨m1, a, hm⟩
  · subst hm
    have h2 := List.append_inj' h (by simp)
    exact .inl ⟨rfl, h2.1, by simpa using h2.2⟩
  · subst hm
    simp only [List.concat_eq_append] at h ⊢
    rw [show l ++ e1 :: (m1 ++ [a]) = (l ++ e1 :: m1) ++ [a] by simp] at h
    have h2 := List.append_inj' h rfl
    obtain ⟨h3, h4⟩ := h2
    exact .inr ⟨m1, by rw [show a = e by simpa using h4], h3.symm⟩

theorem consTrace_nil : ConsTrace [] := by
  intro l e m h
  simp at h

theorem consTrace_snoc {es : List BuildEvent} {e : BuildEvent}
    (h : ConsTrace es) (he : e.2.1 ∉ okRegions es) : ConsTrace (es ++ [e]) := by
  intro l e1 m hd
  rcases snoc_decomp hd.symm with ⟨-, hl, he1⟩ | ⟨m1, -, hes⟩
  · subst hl; subst he1; exact he
  · exact h l e1 m1 hes

theorem consTrace_shift {es : List BuildEvent} {e : BuildEvent}
    (h : ConsTrace (e :: es)) : ConsTrace es := by
  intro l e1 m hd
  have h2 := h (e :: l) e1 m (by rw [hd]; rfl)
  intro hmem
  exact h2 (by rw [okRegions_cons]; exact List.mem_append_right _ hmem)

theorem consTrace_no_later {es l m : List BuildEvent} {e : BuildEvent}
    (h : ConsTrace es) (hd : es = l ++ e :: m) (he : e.2.2 = MkClientResult.ok) :
    ∀ e2 ∈ m, e2.2.1 ≠ e.2.1 := by
  intro e2 hm2 hx
  obtain ⟨s, t, hst⟩ := List.append_of_mem hm2
  have hd2 : es = (l ++ e :: s) ++ e2 :: t := by rw [hd, hst]; simp
  have h3 := h (l ++ e :: s) e2 t hd2
  apply h3
  rw [hx, mem_okRegions]
  exact ⟨e, by simp, he, rfl⟩

theorem consTrace_nodup : ∀ {es : List BuildEvent}, ConsTrace es → (okRegions es).Nodup := by
  intro es
  induction es with
  | nil => intro h; simp [okRegions]
  | cons e es ih =>
    intro h
    have htail := ih (consTrace_shift h)
    rw [okRegions_cons]
    by_cases he : e.2.2 = MkClientResult.ok
    · simp only [if_pos he, List.singleton_append]
      refine List.Nodup.cons ?_ htail
      intro hmem
      obtain ⟨e2, hm2, ho2, hx2⟩ := mem_okRegions.mp hmem
      obtain ⟨s, t, hst⟩ := List.append_of_mem hm2
      have hd2 : e :: es = (e :: s) ++ e2 :: t := by rw [hst]; rfl
      have h3 := h (e :: s) e2 t hd2
      apply h3
      rw [hx2, okRegions_cons, if_pos he]
      exact List.mem_append_left _ (by simp)
    · simpa [if_neg he] using htail

theorem processArns_invariant {w : World} {old : List String} :
    ∀ (arns : List String) (i : Nat) (st : LoopState),
      st.cache = okRegions st.events → ConsTrace st.events →
      ((processArns w old arns i st).1.cache =
        okRegions ((processArns w old arns i st).1).events ∧
       ConsTrace ((processArns w old arns i st).1).events) := by
  intro arns
  induction arns with
  | nil => intro i st h1 h2; exact ⟨h1, h2⟩
  | cons arn rest ih =>
    intro i st h1 h2
    cases hrn : regionName arn with
    | none => rw [processArns_cons_none hrn]; exact ih _ _ h1 h2
    | some rd =>
      obtain ⟨region, doc_name⟩ := rd
      by_cases hin : region ∈ st.cache
      · have hcs : clientStep w i region st = (st, .ready) := by simp [clientStep, if_pos hin]
        rcases @processArns_ready_continue w old arn rest i st st region doc_name hrn hcs with
          ⟨stc, hq, hc, hev⟩ | ⟨st2, hq, hc, hev, -⟩
        · rw [hq]
          exact ⟨by rw [hc, hev]; exact h1, by rw [hev]; exact h2⟩
        · rw [hq]
          exact ih _ _ (by rw [hc, hev]; exact h1) (by rw [hev]; exact h2)
      · have hnotok : region ∉ okRegions st.events := by rw [← h1]; exact hin
        cases hmc : w.mkClient i region with
        | ok =>
          have hcs : clientStep w i region st =
              ({st with cache := st.cache ++ [region],
                        events := st.events ++ [(i, region, .ok)]}, .ready) := by
            simp [clientStep, if_neg hin, hmc]
          have h1' : st.cache ++ [region] =
              okRegions (st.events ++ [(i, region, MkClientResult.ok)]) := by
            rw [okRegions_append, ← h1]
            simp [okRegions]
          have h2' : ConsTrace (st.events ++ [(i, region, MkClientResult.ok)]) :=
            consTrace_snoc h2 hnotok
          rcases @processArns_ready_continue w old arn rest i st
            {st with cache := st.cache ++ [region],
                     events := st.events ++ [(i, region, .ok)]} region doc_name hrn hcs with
            ⟨stc, hq, hc, hev⟩ | ⟨st2, hq, hc, hev, -⟩
          · rw [hq]
            exact ⟨by rw [hc, hev]; exact h1', by rw [hev]; exact h2'⟩
          · rw [hq]
            exact ih _ _ (by rw [hc, hev]; exact h1') (by rw [hev]; exact h2')
        | credsError =>
          have hcs : clientStep w i region st =
              ({st with events := st.events ++ [(i, region, .credsError)]}, .abortRun) := by
            simp [clientStep, if_neg hin, hmc]
          rw [processArns_cons_abort hrn hcs]
          refine ⟨?_, consTrace_snoc h2 hnotok⟩
          rw [okRegions_append, ← h1]
          simp [okRegions]
        | clientError =>
          have hcs : clientStep w i region st =
              ({st with events := st.events ++ [(i, region, .clientError)]}, .skipItem) := by
            simp [clientStep, if_neg hin, hmc]
          rw [processArns_cons_skip hrn hcs]
          refine ih _ _ ?_ (consTrace_snoc h2 hnotok)
          rw [okRegions_append, ← h1]
          simp [okRegions]
        | otherError =>
          have hcs : clientStep w i region st =
              ({st with events := st.events ++ [(i, region, .otherError)]}, .skipItem) := by
            simp [clientStep, if_neg hin, hmc]
          rw [processArns_cons_skip hrn hcs]
          refine ih _ _ ?_ (consTrace_snoc h2 hnotok)
          rw [okRegions_append, ← h1]
          simp [okRegions]

theorem processArns_attempt_event {w : World} {old : List String} {arn : String}
    {rest : List String} {i : Nat} {st : LoopState} {region doc_name : String}
    (hrn : regionName arn = some (region, doc_name)) (hin : region ∉ st.cache) :
    ∃ tail, ((processArns w old (arn :: rest) i st).1).events
      = st.events ++ (i, region, w.mkClient i region) :: tail := by
  cases hmc : w.mkClient i region with
  | ok =>
    have hcs : clientStep w i region st =
        ({st with cache := st.cache ++ [region],
                  events := st.events ++ [(i, region, .ok)]}, .ready) := by
      simp [clientStep, if_neg hin, hmc]
    rcases @processArns_ready_continue w old arn rest i st
      {st with cache := st.cache ++ [region],
               events := st.events ++ [(i, region, .ok)]} region doc_name hrn hcs with
      ⟨stc, hq, -, hev⟩ | ⟨st2, hq, -, hev, -⟩
    · exact ⟨[], by rw [hq, hev]⟩
    · obtain ⟨n2, h2⟩ := processArns_events_extend rest (i + 1) st2
      refine ⟨n2, ?_⟩
      rw [hq, h2, hev]
      simp
  | credsError =>
    have hcs : clientStep w i region st =
        ({st with events := st.events ++ [(i, region, .credsError)]}, .abortRun) := by
      simp [clientStep, if_neg hin, hmc]
    rw [processArns_cons_abort hrn hcs]
    exact ⟨[], rfl⟩
  | clientError =>
    have hcs : clientStep w i region st =
        ({st with events := st.events ++ [(i, region, .clientError)]}, .skipItem) := by
      simp [clientStep, if_neg hin, hmc]
    rw [processArns_cons_skip hrn hcs]
    obtain ⟨n2, h2⟩ := processArns_events_extend rest (i + 1) _
    refine ⟨n2, ?_⟩
    rw [h2]
    simp
  | otherError =>
    have hcs : clientStep w i region st =
        ({st with events := st.events ++ [(i, region, .otherError)]}, .skipItem) := by
      simp [clientStep, if_neg hin, hmc]
    rw [processArns_cons_skip hrn hcs]
    obtain ⟨n2, h2⟩ := processArns_events_extend rest (i + 1) _
    refine ⟨n2, ?_⟩
    rw [h2]
    simp

/-- C9: over a whole run from the empty cache, (a) the successful client
constructions concern pairwise distinct regions — at most one client per
region is ever constructed; (b) the cache holds exactly the regions of the
successful constructions, in order — a failed construction caches nothing;
(c) once a region's construction succeeds, no later construction attempt
for that region happens — later ARNs reuse the cached client; and (d)
whenever the loop reaches a parsed ARN whose region is not cached (first
reference, or every earlier attempt failed), it consults the collaborator
again and records a fresh construction attempt. -/
theorem claim9_client_cache (w : World) (old arns : List String) :
    ((okRegions ((processArns w old arns 0 initState).1).events).Nodup ∧
     (processArns w old arns 0 initState).1.cache =
       okRegions ((processArns w old arns 0 initState).1).events ∧
     ∀ l e m, ((processArns w old arns 0 initState).1).events = l ++ e :: m →
       e.2.2 = MkClientResult.ok → ∀ e2 ∈ m, e2.2.1 ≠ e.2.1) ∧
    (∀ (arn : String) (rest : List String) (i : Nat) (st : LoopState)
        (region doc_name : String),
       regionName arn = some (region, doc_name) → region ∉ st.cache →
       ∃ tail, ((processArns w old (arn :: rest) i st).1).events
         = st.events ++ (i, region, w.mkClient i region) :: tail) := by
  have hinv := @processArns_invariant w old arns 0 initState rfl consTrace_nil
  refine ⟨⟨consTrace_nodup hinv.2, hinv.1, ?_⟩, ?_⟩
  · intro l e m hd he
    exact consTrace_no_later hinv.2 hd he
  · intro arn rest i st region doc_name hrn hin
    exact processArns_attempt_event hrn hin

/-- Witness for C9 on a concrete two-line run. -/
theorem claim9_witness :
    ((processArns wAllOk ["python3.7"] [arnMyDoc, arnDocB] 0 initState).1.cache =
      okRegions ((processArns wAllOk ["python3.7"] [arnMyDoc, arnDocB] 0 initState).1).events) ∧
    (regionName arnMyDoc = some ("us-east-1", "MyDoc") ∧ "us-east-1" ∉ initState.cache) ∧
    (∃ tail, ((processArns wAllOk ["python3.7"] [arnMyDoc] 0 initState).1).events
      = initState.events ++ (0, "us-east-1", wAllOk.mkClient 0 "us-east-1") :: tail) :=
  ⟨(claim9_client_cache wAllOk ["python3.7"] [arnMyDoc, arnDocB]).1.2.1,
   ⟨rfl, by simp [initState]⟩,
   (claim9_client_cache wAllOk ["python3.7"] [arnMyDoc]).2 arnMyDoc [] 0 initState
     "us-east-1" "MyDoc" rfl (by simp [initState])⟩
